import Mathlib

/-
  Verification development for the trice repository (Go).

  Shallow embedding of:
  - internal/id/manageIDs.go : preProcessing (IDSpace construction) and postProcessing
    (persistence decisions);
  - the line composer (emitter package, TriceLineComposer.WriteString);
  - cmd/trice/handleArgs.go : createCipher;
  - the ID refresh / insert synchronization algorithms (modelled from the spec, as their
    implementation file is not part of the provided sources; their whitebox tests are).

  Go strings are modelled as List Char, Go maps as association lists (first key wins on
  lookup, matching Go map semantics with unique keys), and the io.Writer side effects
  (diagnostic prints, file writes) as returned data.
-/

namespace Trice

/-- Model of Go strings.ReplaceAll with explicit fuel; one unit of fuel is spent per
emitted chunk, and each step consumes at least one input character, so fuel s.length
is always sufficient.  Replaces non-overlapping occurrences of pat left to right. -/
def replaceAllFuel (pat rep : List Char) : Nat → List Char → List Char
  | _, [] => []
  | 0, s => s
  | fuel + 1, c :: s =>
    if pat ≠ [] ∧ pat.isPrefixOf (c :: s) then
      rep ++ replaceAllFuel pat rep fuel (List.drop pat.length (c :: s))
    else
      c :: replaceAllFuel pat rep fuel s

/-- Model of Go strings.ReplaceAll (for the nonempty patterns used by the line composer). -/
def replaceAll (pat rep s : List Char) : List Char :=
  replaceAllFuel pat rep s.length s

/-- Model of Go strings.Split(s, "\n"): split around every line feed. -/
def splitLF : List Char → List (List Char)
  | [] => [[]]
  | c :: s =>
    if c = '\n' then [] :: splitLF s
    else
      match splitLF s with
      | [] => [[c]]
      | t :: ts => (c :: t) :: ts

/-- The newline normalization performed at the top of TriceLineComposer.WriteString:
s0 := ReplaceAll(s, "\\r\\n", "\n"); s1 := ReplaceAll(s0, "\\n", "\n");
sn := ReplaceAll(s1, "\r\n", "\n").  The first two patterns are the backslash-escaped
spellings (4 and 2 characters), the third is a real CR LF. -/
def normalizeNewlines (s : List Char) : List Char :=
  replaceAll ['\r', '\n'] ['\n']
    (replaceAll ['\\', 'n'] ['\n']
      (replaceAll ['\\', 'r', '\\', 'n'] ['\n'] s))

/-- TriceLineComposer (emitter package): pfx and sfx are the stored prefix/suffix
(p.prefix, p.suffix), line is the in-progress line collector p.line.  The line writer
and the timestamp clock are modelled by the WriteString result and parameter. -/
structure TriceLineComposer where
  pfx : List Char
  sfx : List Char
  line : List (List Char)
deriving DecidableEq

/-- Result of one WriteString call: the updated composer, the lines handed to the
line writer (in order), and the (n, err) return values.  err is a named Go return
that the function never assigns, hence always none. -/
structure WriteResult where
  comp : TriceLineComposer
  written : List (List (List Char))
  n : Nat
  err : Option String
deriving DecidableEq

/-- The per-substring loop of TriceLineComposer.WriteString.  Arguments after the
fixed pfx/sfx/ts: remaining substrings ss, current p.line, lineEndCount, the
emptyLine flag, and the lines written so far. -/
def writeLoop (pfx sfx ts : List Char) :
    List (List Char) → List (List Char) → Nat → Bool → List (List (List Char)) →
    (List (List Char)) × Bool × List (List (List Char))
  | [], line, _, e, acc => (line, e, acc)
  | sx :: rest, line, lec, e, acc =>
    if line.isEmpty then
      if 0 < lec then
        writeLoop pfx sfx ts rest [] (lec - 1) e (acc ++ [[ts, pfx, sx, sfx]])
      else
        writeLoop pfx sfx ts rest [ts, pfx, sx] lec (e || sx.isEmpty) acc
    else
      if 0 < lec then
        writeLoop pfx sfx ts rest [] (lec - 1) e (acc ++ [line ++ [sx, sfx]])
      else
        writeLoop pfx sfx ts rest (line ++ [sx]) lec e acc

/-- TriceLineComposer.WriteString.  ts is the string produced by p.timestamp() at this
call (captured once per call, as in the source).  Returns the new composer state, the
lines written to the internal line writer, and the function results n and err. -/
def WriteString (p : TriceLineComposer) (ts s : List Char) : WriteResult :=
  if s.isEmpty then
    WriteResult.mk p [] 0 none
  else
    let sn := normalizeNewlines s
    let ss := splitLF sn
    let r := writeLoop p.pfx p.sfx ts ss p.line (ss.length - 1) false []
    let finalLine := if r.2.1 then ([] : List (List Char)) else r.1
    WriteResult.mk (TriceLineComposer.mk p.pfx p.sfx finalLine) r.2.2 s.length none

/-- TriceFmt (package id): the value type of the ID lookup table.  The Go field Type
is spelled Typ here because Type is reserved in Lean. -/
structure TriceFmt where
  Typ : String
  Strg : String
deriving DecidableEq

/- The Go TriceID type is an integer identifier; only values in [Min, Max] are ever
allocated, so a Nat carries it faithfully.  It is written Nat directly below. -/

/-- TriceIDLookUp: the id → format map (til.json contents), as an association list. -/
abbrev TriceIDLookUp := List (Nat × TriceFmt)

/-- Location information stored per ID in li.json. -/
structure TriceLI where
  File : String
  Line : Nat
deriving DecidableEq

/-- TriceIDLookUpLI: the id → location map (li.json contents), as an association list. -/
abbrev TriceIDLookUpLI := List (Nat × TriceLI)

/-- The ascending iteration sequence of the Go loop, by length: lo, lo+1, ... -/
def rangeFrom (lo : Nat) : Nat → List Nat
  | 0 => []
  | n + 1 => lo :: rangeFrom (lo + 1) n

/-- The values taken by id in the loop for id := Min; id <= Max; id++ . -/
def rangeClosed (lo hi : Nat) : List Nat :=
  rangeFrom lo (hi + 1 - lo)

/-- The IDSpace built by idData.preProcessing (manageIDs.go): every id in [Min, Max]
that is a key of neither idToTrice nor idToLocRef, collected in loop order.  The
diagnostic prints for ids found in only one of the two tables carry no data and are
not modelled. -/
def IDSpaceOf (idToTrice : TriceIDLookUp) (idToLocRef : TriceIDLookUpLI)
    (Min Max : Nat) : List Nat :=
  (rangeClosed Min Max).filter
    (fun id => (List.lookup id idToTrice).isNone && (List.lookup id idToLocRef).isNone)

/-- idData.postProcessing (manageIDs.go), reduced to its two persistence decisions.
Returns (til.json written, li.json written).  idsAdded := len(p.idToTrice) - p.idCount
is Go int arithmetic, hence computed in Int.  The til file is written when idsAdded > 0
and DryRun is unset; the function then returns early when LIFnJSON is "off" or "none",
and otherwise writes the rebuilt li file unconditionally. -/
def postProcessing (idToTrice : TriceIDLookUp) (idCount : Nat) (DryRun : Bool)
    (LIFnJSON : String) : Bool × Bool :=
  let idsAdded : Int := (idToTrice.length : Int) - (idCount : Int)
  let wroteTil : Bool := decide (0 < idsAdded) && !DryRun
  if LIFnJSON = "off" ∨ LIFnJSON = "none" then (wroteTil, false)
  else (wroteTil, true)

/-- The pass-phrase sentinel "none" from handleArgs.go, as a character list. -/
def nonePhrase : List Char := ['n', 'o', 'n', 'e']

/-- Model of xtea.NewCipher (external library): succeeds exactly on 16-byte keys; the
cipher object is represented by its key. -/
def xteaNewCipher (key : List Nat) : Except String (List Nat) :=
  if key.length = 16 then Except.ok key else Except.error "KeySizeError"

/-- createCipher (cmd/trice/handleArgs.go).  The SHA-1 hash is an external library
call, passed in as a function from pass-phrase bytes to digest bytes.  The key is the
digest truncated to its first 16 bytes (key = key[:16]); the encryption flag e is set
exactly when the pass-phrase differs from "none".  The show parameter only controls
diagnostic printing and is not modelled. -/
def createCipher (sha1 : List Char → List Nat) (password : List Char) :
    Except String (List Nat × Bool) :=
  let key := (sha1 password).take 16
  match xteaNewCipher key with
  | Except.error _ => Except.error "NewCipher returned error"
  | Except.ok c =>
    let e : Bool := if password = nonePhrase then false else true
    Except.ok (c, e)

/-- A parsed trice call site: macro type token, embedded ID (0 = the unassigned
sentinel), and format string. -/
structure TriceItem where
  Typ : String
  id : Nat
  Strg : String
deriving DecidableEq

/-- The (macroType, formatString) pair of a call site. -/
def itemFmt (it : TriceItem) : TriceFmt :=
  TriceFmt.mk it.Typ it.Strg

/-- Modelled from the spec: one step of the list-refresh walk over call sites with
non-zero IDs (the refresh implementation itself is not among the provided sources;
only its whitebox tests are).  Per spec 4.1 step 5 and 7(b): an ID absent from the
table is inserted; a later call site with the same ID and a different format is
reported as a mismatch and the first-seen entry is kept. -/
def refreshStep (acc : TriceIDLookUp × List Nat) (it : TriceItem) :
    TriceIDLookUp × List Nat :=
  match List.lookup it.id acc.1 with
  | none => (acc.1 ++ [(it.id, itemFmt it)], acc.2)
  | some tf => if itemFmt it = tf then acc else (acc.1, acc.2 ++ [it.id])

/-- Modelled from the spec: the refresh walk over all call sites in file-tree order. -/
def refreshGo (acc : TriceIDLookUp × List Nat) :
    List TriceItem → TriceIDLookUp × List Nat
  | [] => acc
  | it :: rest => refreshGo (refreshStep acc it) rest

/-- Modelled from the spec: refresh of the ID list from the source tree, starting from
an empty table.  Returns the table and the list of reported mismatch IDs. -/
def refreshIDs (items : List TriceItem) : TriceIDLookUp × List Nat :=
  refreshGo ([], []) items

/-- Modelled from the spec, amended by the repository's whitebox test
TestInsertSharedIDs0WithParamCount (update_whitebox_test.go): the insert pass over
call sites.  A call site embedding the sentinel ID 0 always pops the next unused ID
from the ID space — identical (macroType, formatString) pairs do NOT share an ID (the
disabled tests in the same file are marked "no more shared").  A call site with a
non-zero ID is inserted when absent (first occurrence wins).  Returns the final table
and the ID resolved for each call site in walk order. -/
def insertGo : List Nat → TriceIDLookUp → List TriceItem →
    TriceIDLookUp × List Nat
  | _, t, [] => (t, [])
  | ids, t, it :: rest =>
    if it.id = 0 then
      match ids with
      | [] =>
        let r := insertGo [] t rest
        (r.1, 0 :: r.2)
      | newId :: ids2 =>
        let r := insertGo ids2 (t ++ [(newId, itemFmt it)]) rest
        (r.1, newId :: r.2)
    else
      let t1 := match List.lookup it.id t with
        | none => t ++ [(it.id, itemFmt it)]
        | some _ => t
      let r := insertGo ids t1 rest
      (r.1, it.id :: r.2)

/-- The insert synchronization pass, starting from an empty loaded table (the setting
of TestInsertSharedIDs0WithParamCount). -/
def insertTriceIDs (idSpace : List Nat) (items : List TriceItem) :
    TriceIDLookUp × List Nat :=
  insertGo idSpace [] items

/-- First ID recorded in the table for a given format, per spec 4.1 step 1 (the
reverse index resolves repeated formats to the first recorded ID). -/
def findIDForFmt (t : TriceIDLookUp) (tf : TriceFmt) : Option Nat :=
  match t.find? (fun p => p.2 == tf) with
  | some p => some p.1
  | none => none

/-- Modelled from the spec, verbatim (spec 4.1 step 4): the shared-ID variant of the
insert pass, in which a sentinel-0 call site whose (macroType, formatString) is
already in the table reuses the first matching ID instead of allocating.  Kept to
compare the spec's description against the behavior fixed by the repository's test. -/
def insertSharedGo : List Nat → TriceIDLookUp → List TriceItem →
    TriceIDLookUp × List Nat
  | _, t, [] => (t, [])
  | ids, t, it :: rest =>
    if it.id = 0 then
      match findIDForFmt t (itemFmt it) with
      | some rid =>
        let r := insertSharedGo ids t rest
        (r.1, rid :: r.2)
      | none =>
        match ids with
        | [] =>
          let r := insertSharedGo [] t rest
          (r.1, 0 :: r.2)
        | newId :: ids2 =>
          let r := insertSharedGo ids2 (t ++ [(newId, itemFmt it)]) rest
          (r.1, newId :: r.2)
    else
      let t1 := match List.lookup it.id t with
        | none => t ++ [(it.id, itemFmt it)]
        | some _ => t
      let r := insertSharedGo ids t1 rest
      (r.1, it.id :: r.2)

/-- The shared-ID insert pass from an empty loaded table. -/
def insertTriceIDsShared (idSpace : List Nat) (items : List TriceItem) :
    TriceIDLookUp × List Nat :=
  insertSharedGo idSpace [] items

/-- The call sites of TestInsertSharedIDs0WithParamCount (update_whitebox_test.go,
lines 147-190), in source order; every site embeds the sentinel ID 0. -/
def testTableInsert : List TriceItem :=
  [ TriceItem.mk "TRICE" 0 "Go is fun",
    TriceItem.mk "trice8_1" 0 "hi %d",
    TriceItem.mk "trice8_1" 0 "hi %d",
    TriceItem.mk "TRICE8_1" 0 "hi %d",
    TriceItem.mk "TRICE8_1" 0 "hi %d",
    TriceItem.mk "trice8_1" 0 "hi %d",
    TriceItem.mk "Trice8_1" 0 "hi %d",
    TriceItem.mk "Trice8_2" 0 "hi %d %u",
    TriceItem.mk "Trice16_1" 0 "hi %d" ]

/-- The expected table em of TestInsertSharedIDs0WithParamCount: each of the nine
sentinel-0 call sites received its own fresh ID 10000..10008, including the sites
with identical (macroType, formatString). -/
def emInsert : TriceIDLookUp :=
  [ (10000, TriceFmt.mk "TRICE" "Go is fun"),
    (10001, TriceFmt.mk "trice8_1" "hi %d"),
    (10002, TriceFmt.mk "trice8_1" "hi %d"),
    (10003, TriceFmt.mk "TRICE8_1" "hi %d"),
    (10004, TriceFmt.mk "TRICE8_1" "hi %d"),
    (10005, TriceFmt.mk "trice8_1" "hi %d"),
    (10006, TriceFmt.mk "Trice8_1" "hi %d"),
    (10007, TriceFmt.mk "Trice8_2" "hi %d %u"),
    (10008, TriceFmt.mk "Trice16_1" "hi %d") ]

/-- The two call sites of TestRefreshIDListSingle1 (update_whitebox_test.go): the
same ID 12345 carries two different format strings; the test expects only the first
occurrence in the resulting list. -/
def testRefreshItems : List TriceItem :=
  [ TriceItem.mk "TRICE16_3" 12345 "hi %2d, %13u, %64b\\n",
    TriceItem.mk "TRICE16_3" 12345 "DIFFERENT! %2d, %13u, %64b\\n" ]

/-- The fragment "msg:value=" of the spec's line-splitting scenario. -/
def msgValueChars : List Char :=
  ['m', 's', 'g', ':', 'v', 'a', 'l', 'u', 'e', '=']

theorem mem_rangeFrom {x : Nat} : ∀ {n lo : Nat}, x ∈ rangeFrom lo n ↔ lo ≤ x ∧ x < lo + n := by
  intro n
  induction n with
  | zero => intro lo; simp [rangeFrom]
  | succ m ih =>
    intro lo
    simp only [rangeFrom, List.mem_cons, ih]
    omega

theorem pairwise_rangeFrom : ∀ (n lo : Nat), List.Pairwise (· < ·) (rangeFrom lo n) := by
  intro n
  induction n with
  | zero => intro lo; simp [rangeFrom]
  | succ m ih =>
    intro lo
    simp only [rangeFrom, List.pairwise_cons]
    refine ⟨?_, ih (lo + 1)⟩
    intro x hx
    have := mem_rangeFrom.mp hx
    omega

theorem lookup_eq_none_iff {β : Type} (k : Nat) :
    ∀ (l : List (Nat × β)), List.lookup k l = none ↔ ∀ v, (k, v) ∉ l := by
  intro l
  induction l with
  | nil => simp
  | cons p rest ih =>
    obtain ⟨a, b⟩ := p
    by_cases hk : k = a
    · subst hk
      have hl : List.lookup k ((k, b) :: rest) = some b := by
        simp [List.lookup]
      rw [hl]
      exact iff_of_false (by simp) (fun hall => hall b (List.mem_cons_self _ _))
    · simp only [List.lookup, List.mem_cons]
      have hbeq : (k == a) = false := by simp [hk]
      rw [hbeq]
      simp only [ih]
      constructor
      · intro h v hv
        rcases hv with hv | hv
        · exact hk (congrArg Prod.fst hv)
        · exact h v hv
      · intro h v hv
        exact h v (Or.inr hv)

theorem mem_IDSpaceOf {t : TriceIDLookUp} {l : TriceIDLookUpLI} {Min Max id : Nat} :
    id ∈ IDSpaceOf t l Min Max ↔
      Min ≤ id ∧ id ≤ Max ∧ (∀ v, (id, v) ∉ t) ∧ (∀ v, (id, v) ∉ l) := by
  simp only [IDSpaceOf, List.mem_filter, rangeClosed, mem_rangeFrom,
    Bool.and_eq_true, Option.isNone_iff_eq_none, lookup_eq_none_iff]
  constructor
  · rintro ⟨⟨h1, h2⟩, h3, h4⟩
    exact ⟨h1, by omega, h3, h4⟩
  · rintro ⟨h1, h2, h3, h4⟩
    exact ⟨⟨h1, by omega⟩, h3, h4⟩

theorem pairwise_IDSpaceOf (t : TriceIDLookUp) (l : TriceIDLookUpLI) (Min Max : Nat) :
    List.Pairwise (· < ·) (IDSpaceOf t l Min Max) := by
  unfold IDSpaceOf rangeClosed
  exact (pairwise_rangeFrom _ _).sublist (List.filter_sublist _)

theorem wroteTil_iff (len c : Nat) (d : Bool) :
    (decide (0 < (len : Int) - (c : Int)) && !d) = true ↔ (c < len ∧ d = false) := by
  rcases d
  · simp only [Bool.not_false, Bool.and_true, decide_eq_true_eq, and_true]
    omega
  · simp

/-- C3: after preProcessing, IDSpace contains exactly those ids with Min ≤ id ≤ Max
that are a key of neither idToTrice nor idToLocRef, in strictly ascending order with
no duplicates. -/
theorem preProcessing_IDSpace_exact :
    ∀ (idToTrice : TriceIDLookUp) (idToLocRef : TriceIDLookUpLI) (Min Max : Nat),
    (∀ id, id ∈ IDSpaceOf idToTrice idToLocRef Min Max ↔
      (Min ≤ id ∧ id ≤ Max ∧ (∀ v, (id, v) ∉ idToTrice) ∧ (∀ v, (id, v) ∉ idToLocRef)))
    ∧ List.Pairwise (· < ·) (IDSpaceOf idToTrice idToLocRef Min Max)
    ∧ (IDSpaceOf idToTrice idToLocRef Min Max).Nodup := by
  intro t l Min Max
  refine ⟨fun id => mem_IDSpaceOf, pairwise_IDSpaceOf t l Min Max, ?_⟩
  exact (pairwise_IDSpaceOf t l Min Max).imp (fun h => Nat.ne_of_lt h)

/-- C3 witness: concrete instantiation with a one-entry format table. -/
theorem preProcessing_IDSpace_exact_witness :
    10001 ∈ IDSpaceOf [(10000, TriceFmt.mk "TRICE" "hi")] [] 10000 10002
    ∧ 10000 ∉ IDSpaceOf [(10000, TriceFmt.mk "TRICE" "hi")] [] 10000 10002 := by
  have h := preProcessing_IDSpace_exact [(10000, TriceFmt.mk "TRICE" "hi")] [] 10000 10002
  constructor
  · refine (h.1 10001).mpr ⟨by decide, by decide, ?_, ?_⟩
    · intro v hv
      simp only [List.mem_singleton, Prod.mk.injEq] at hv
      exact absurd hv.1 (by decide)
    · intro v hv
      simp at hv
  · intro hmem
    have hc := (h.1 10000).mp hmem
    exact hc.2.2.1 (TriceFmt.mk "TRICE" "hi") (List.mem_singleton.mpr rfl)

/-- C4: with the configured lower bound at least 1 (the spec reserves 0 as the
unassigned sentinel), the ID value 0 is never an element of the IDSpace built by
preProcessing, and every element satisfies Min ≤ id ≤ Max and id ≠ 0, for every pair
of loaded tables. -/
theorem preProcessing_IDSpace_no_zero :
    ∀ (idToTrice : TriceIDLookUp) (idToLocRef : TriceIDLookUpLI) (Min Max : Nat),
    1 ≤ Min →
    0 ∉ IDSpaceOf idToTrice idToLocRef Min Max
    ∧ (∀ id ∈ IDSpaceOf idToTrice idToLocRef Min Max, Min ≤ id ∧ id ≤ Max ∧ id ≠ 0) := by
  intro t l Min Max hmin
  constructor
  · intro h
    have := mem_IDSpaceOf.mp h
    omega
  · intro id hid
    have := mem_IDSpaceOf.mp hid
    refine ⟨this.1, this.2.1, ?_⟩
    omega

/-- C4 witness: the configured test range of TestInsertSharedIDs0WithParamCount. -/
theorem preProcessing_IDSpace_no_zero_witness :
    0 ∉ IDSpaceOf [] [] 10000 10099
    ∧ (∀ id ∈ IDSpaceOf [] [] 10000 10099, 10000 ≤ id ∧ id ≤ 10099 ∧ id ≠ 0) :=
  preProcessing_IDSpace_no_zero [] [] 10000 10099 (by decide)

/-- C5: postProcessing writes the FormatTable file exactly when the table has strictly
more entries than at load time and DryRun is unset, and writes the rebuilt
LocationTable file exactly when LIFnJSON is neither "off" nor "none", independently of
DryRun and of table growth. -/
theorem postProcessing_write_iff :
    ∀ (idToTrice : TriceIDLookUp) (idCount : Nat) (DryRun : Bool) (LIFnJSON : String),
    ((postProcessing idToTrice idCount DryRun LIFnJSON).1 = true ↔
      (idCount < idToTrice.length ∧ DryRun = false))
    ∧ ((postProcessing idToTrice idCount DryRun LIFnJSON).2 = true ↔
      (LIFnJSON ≠ "off" ∧ LIFnJSON ≠ "none")) := by
  intro t c d li
  unfold postProcessing
  by_cases h : li = "off" ∨ li = "none"
  · rw [if_pos h]
    refine ⟨wroteTil_iff t.length c d, ?_⟩
    exact iff_of_false (by simp)
      (fun hcon => h.elim (fun h1 => hcon.1 h1) (fun h2 => hcon.2 h2))
  · rw [if_neg h]
    push_neg at h
    refine ⟨wroteTil_iff t.length c d, ?_⟩
    exact iff_of_true rfl h

/-- C5 witness: with one entry added and DryRun set, the til file is not written while
the li file is. -/
theorem postProcessing_write_iff_witness :
    ¬((postProcessing [(1, TriceFmt.mk "TRICE" "hi")] 0 true "li.json").1 = true
        ↔ (0 < 1 ∧ True))
    ∧ (postProcessing [(1, TriceFmt.mk "TRICE" "hi")] 0 true "li.json").2 = true := by
  have h := postProcessing_write_iff [(1, TriceFmt.mk "TRICE" "hi")] 0 true "li.json"
  constructor
  · intro hcon
    have := hcon.mpr ⟨by decide, trivial⟩
    have h2 := h.1.mp this
    exact absurd h2.2 (by decide)
  · exact h.2.mpr (by decide)

/-- C9: createCipher derives the key as exactly the first 16 bytes of the hash of the
pass-phrase (the derivation is performed identically for every pass-phrase), and the
encryption flag is true exactly when the pass-phrase differs from the sentinel
"none". -/
theorem createCipher_key_and_flag :
    ∀ (sha1 : List Char → List Nat) (password : List Char),
    16 ≤ (sha1 password).length →
    createCipher sha1 password
      = Except.ok ((sha1 password).take 16, decide (password ≠ nonePhrase)) := by
  intro f pw h
  have hlen : ((f pw).take 16).length = 16 := by
    simp only [List.length_take]
    omega
  by_cases hp : pw = nonePhrase
  · subst hp
    simp [createCipher, xteaNewCipher, hlen, h]
  · simp [createCipher, xteaNewCipher, hlen, hp, h]

/-- C9 witness: a 20-byte digest (the SHA-1 output length) with the sentinel
pass-phrase: key is the 16-byte truncation, flag is false. -/
theorem createCipher_key_and_flag_witness :
    createCipher (fun _ => List.range 20) nonePhrase
      = Except.ok ((List.range 20).take 16, false) := by
  have h := createCipher_key_and_flag (fun _ => List.range 20) nonePhrase (by decide)
  exact h.trans rfl

theorem splitLF_ne_nil : ∀ (s : List Char), splitLF s ≠ [] := by
  intro s
  cases s with
  | nil => simp [splitLF]
  | cons c t =>
    by_cases hc : c = '\n'
    · simp [splitLF, hc]
    · simp only [splitLF, if_neg hc]
      cases splitLF t <;> simp

theorem splitLF_length : ∀ (s : List Char), (splitLF s).length = s.count '\n' + 1 := by
  intro s
  induction s with
  | nil => simp [splitLF]
  | cons c t ih =>
    by_cases hc : c = '\n'
    · subst hc
      simp [splitLF, List.count_cons, ih]
    · simp only [splitLF, if_neg hc]
      rcases hsp : splitLF t with _ | ⟨u, us⟩
      · exact absurd hsp (splitLF_ne_nil t)
      · have := ih
        rw [hsp] at this
        simp only [List.length_cons] at this ⊢
        simp [List.count_cons, hc, this]

theorem replaceAllFuel_ne_nil {pat rep : List Char} (hrep : rep ≠ []) :
    ∀ (fuel : Nat) (s : List Char), s ≠ [] → replaceAllFuel pat rep fuel s ≠ [] := by
  intro fuel s hs
  cases fuel with
  | zero =>
    cases s with
    | nil => exact absurd rfl hs
    | cons c t => simp [replaceAllFuel]
  | succ m =>
    cases s with
    | nil => exact absurd rfl hs
    | cons c t =>
      simp only [replaceAllFuel]
      by_cases hp : pat ≠ [] ∧ pat.isPrefixOf (c :: t)
      · rw [if_pos hp]
        simp [hrep]
      · rw [if_neg hp]
        simp

theorem normalizeNewlines_ne_nil {s : List Char} (hs : s ≠ []) :
    normalizeNewlines s ≠ [] := by
  unfold normalizeNewlines replaceAll
  apply replaceAllFuel_ne_nil (by simp)
  apply replaceAllFuel_ne_nil (by simp)
  apply replaceAllFuel_ne_nil (by simp)
  exact hs

theorem writeLoop_written_length (pfx sfx ts : List Char) :
    ∀ (ss : List (List Char)) (line : List (List Char)) (lec : Nat) (e : Bool)
      (acc : List (List (List Char))),
    ((writeLoop pfx sfx ts ss line lec e acc).2.2).length = acc.length + min lec ss.length := by
  intro ss
  induction ss with
  | nil =>
    intro line lec e acc
    simp [writeLoop]
  | cons sx rest ih =>
    intro line lec e acc
    by_cases hl : line.isEmpty <;> by_cases hc : 0 < lec <;>
        simp [writeLoop, hl, hc, ih] <;>
      omega

theorem writeLoop_cons_pos (pfx sfx ts sx : List Char) (rest line : List (List Char))
    (lec : Nat) (e : Bool) (acc : List (List (List Char))) (hpos : 0 < lec) :
    writeLoop pfx sfx ts (sx :: rest) line lec e acc =
      writeLoop pfx sfx ts rest [] (lec - 1) e
        (acc ++ [if line.isEmpty then [ts, pfx, sx, sfx] else line ++ [sx, sfx]]) := by
  by_cases hl : line.isEmpty <;> simp [writeLoop, hl, hpos]

theorem writeLoop_cons_zero (pfx sfx ts sx : List Char) (rest line : List (List Char))
    (e : Bool) (acc : List (List (List Char))) :
    writeLoop pfx sfx ts (sx :: rest) line 0 e acc =
      if line.isEmpty then writeLoop pfx sfx ts rest [ts, pfx, sx] 0 (e || sx.isEmpty) acc
      else writeLoop pfx sfx ts rest (line ++ [sx]) 0 e acc := by
  by_cases hl : line.isEmpty <;> simp [writeLoop, hl]

theorem writeLoop_last_structure (pfx sfx ts : List Char) :
    ∀ (ss : List (List Char)) (f : List Char) (line : List (List Char))
      (acc : List (List (List Char))),
    2 ≤ ss.length → ss.getLast? = some f →
    (writeLoop pfx sfx ts ss line (ss.length - 1) false acc).1 = [ts, pfx, f]
    ∧ (writeLoop pfx sfx ts ss line (ss.length - 1) false acc).2.1 = f.isEmpty := by
  intro ss
  induction ss with
  | nil =>
    intro f line acc hlen
    simp at hlen
  | cons sx rest ih =>
    intro f line acc hlen hlast
    cases rest with
    | nil => simp at hlen
    | cons sy rest2 =>
      have hlast2 : (sy :: rest2).getLast? = some f := by
        rwa [List.getLast?_cons_cons] at hlast
      have hlec : (sx :: sy :: rest2).length - 1 = (sy :: rest2).length := by simp
      rw [hlec, writeLoop_cons_pos pfx sfx ts sx (sy :: rest2) line (sy :: rest2).length
        false acc (by simp)]
      cases rest2 with
      | nil =>
        have hf : sy = f := by
          simpa [List.getLast?] using hlast2
        subst hf
        simp [writeLoop]
      | cons sz rest3 =>
        exact ih f [] _ (by simp) hlast2

theorem splitLF_getLast_nil_length {s : List Char} (hs : s ≠ [])
    (hlast : (splitLF s).getLast? = some []) : 2 ≤ (splitLF s).length := by
  cases s with
  | nil => exact absurd rfl hs
  | cons c t =>
    by_cases hc : c = '\n'
    · have hlen : 0 < (splitLF t).length := by
        cases hsp : splitLF t with
        | nil => exact absurd hsp (splitLF_ne_nil t)
        | cons a l => simp
      simp [splitLF, hc]
      omega
    · simp only [splitLF, if_neg hc] at hlast ⊢
      rcases hsp : splitLF t with _ | ⟨u, us⟩
      · exact absurd hsp (splitLF_ne_nil t)
      · cases us with
        | nil =>
          rw [hsp] at hlast
          simp [List.getLast?] at hlast
        | cons v vs => simp

/-- C6: WriteString first rewrites the escaped backslash-r-backslash-n, escaped
backslash-n, and CR LF spellings to a single LF and splits there; a fragment holding
k line-break markers makes exactly k complete lines reach the line writer, the state
retains at most one incomplete trailing fragment, and feeding "a\nb\nc\n" as one
fragment writes exactly the lines with bodies "a", "b", "c" in order, leaving no
pending line. -/
theorem WriteString_lines :
    (∀ (p : TriceLineComposer) (ts s : List Char),
      ((WriteString p ts s).written).length = (normalizeNewlines s).count '\n')
    ∧ (∀ (p : TriceLineComposer) (ts s f : List Char),
      (splitLF (normalizeNewlines s)).getLast? = some f →
      (WriteString p ts s).comp.line = []
      ∨ (WriteString p ts s).comp.line = [ts, p.pfx, f]
      ∨ (WriteString p ts s).comp.line = p.line ++ [f]
      ∨ (WriteString p ts s).comp.line = p.line)
    ∧ (∀ (ts pfx sfx : List Char),
      WriteString (TriceLineComposer.mk pfx sfx []) ts ['a', '\n', 'b', '\n', 'c', '\n']
        = WriteResult.mk (TriceLineComposer.mk pfx sfx [])
            [[ts, pfx, ['a'], sfx], [ts, pfx, ['b'], sfx], [ts, pfx, ['c'], sfx]]
            6 none) := by
  refine ⟨?_, ?_, ?_⟩
  · intro p ts s
    by_cases hs : s.isEmpty
    · have hnil : s = [] := by simpa using hs
      subst hnil
      rfl
    · have hss := splitLF_length (normalizeNewlines s)
      have hpos : 0 < (splitLF (normalizeNewlines s)).length := by
        cases hsp : splitLF (normalizeNewlines s) with
        | nil => exact absurd hsp (splitLF_ne_nil _)
        | cons a l => simp
      simp only [WriteString, hs, Bool.false_eq_true, if_false,
        writeLoop_written_length]
      simp only [List.length_nil]
      omega
  · intro p ts s f hlast
    by_cases hs : s.isEmpty
    · have hnil : s = [] := by simpa using hs
      subst hnil
      exact Or.inr (Or.inr (Or.inr rfl))
    · have hne : s ≠ [] := by
        intro h
        subst h
        simp at hs
      simp only [WriteString, hs, Bool.false_eq_true, if_false]
      rcases hsp : splitLF (normalizeNewlines s) with _ | ⟨x, xs⟩
      · exact absurd hsp (splitLF_ne_nil _)
      · cases xs with
        | nil =>
          have hf : x = f := by
            rw [hsp] at hlast
            simpa [List.getLast?] using hlast
          subst hf
          by_cases hl : (p.line).isEmpty <;> by_cases hfe : x.isEmpty <;>
            simp [writeLoop, hl, hfe]
        | cons y ys =>
          have h2 : 2 ≤ (splitLF (normalizeNewlines s)).length := by
            rw [hsp]
            simp
          rw [hsp] at hlast
          have hstruct := writeLoop_last_structure p.pfx p.sfx ts (x :: y :: ys) f
            p.line [] (by simp) hlast
          simp only [List.length_cons]
          have harg : ys.length + 1 + 1 - 1 = (x :: y :: ys).length - 1 := by simp
          rw [harg]
          rw [hstruct.1, hstruct.2]
          by_cases hfe : f.isEmpty <;> simp [hfe]
  · intro ts pfx sfx
    rfl

/-- C6 witness: a single fragment with no line break retains exactly that fragment as
the one pending line. -/
theorem WriteString_lines_witness :
    (WriteString (TriceLineComposer.mk [] [] []) [] ['a']).comp.line = []
    ∨ (WriteString (TriceLineComposer.mk [] [] []) [] ['a']).comp.line
        = [[], [], ['a']]
    ∨ (WriteString (TriceLineComposer.mk [] [] []) [] ['a']).comp.line = [['a']]
    ∨ (WriteString (TriceLineComposer.mk [] [] []) [] ['a']).comp.line = [] :=
  WriteString_lines.2.1 (TriceLineComposer.mk [] [] []) [] ['a'] ['a'] (by decide)

theorem writeLoop_acc_prefix (pfx sfx ts : List Char) :
    ∀ (ss line : List (List Char)) (lec : Nat) (e : Bool)
      (acc : List (List (List Char))),
    acc <+: (writeLoop pfx sfx ts ss line lec e acc).2.2 := by
  intro ss
  induction ss with
  | nil =>
    intro line lec e acc
    simp [writeLoop]
  | cons sx rest ih =>
    intro line lec e acc
    rcases Nat.eq_zero_or_pos lec with h0 | hpos
    · subst h0
      rw [writeLoop_cons_zero]
      by_cases hl : line.isEmpty
      · rw [if_pos hl]
        exact ih _ _ _ _
      · rw [if_neg hl]
        exact ih _ _ _ _
    · rw [writeLoop_cons_pos pfx sfx ts sx rest line lec e acc hpos]
      exact (List.prefix_append acc _).trans (ih _ _ _ _)

theorem head_append_of_ne_nil {α : Type} {l : List α} (m : List α) (h : l ≠ []) :
    (l ++ m).head? = l.head? := by
  cases l with
  | nil => exact absurd rfl h
  | cons a t => rfl

/-- C7: a composed line keeps the timestamp captured by the WriteString call that
delivered its first fragment.  In general: whenever the composer holds a nonempty
in-progress line, any later WriteString call — whatever its fragment and its freshly
captured timestamp — only ever extends that line: either the first line written by
the call has the stored p.line as a prefix (so its head element, the original
timestamp, is unchanged), or nothing is written and the retained line state still
has p.line as a prefix with the same head.  In particular, feeding "msg:value=" with
timestamp ts1 and then "200\n" with timestamp ts2 writes exactly one line carrying
ts1 and the body pieces "msg:value=" and "200", leaving no pending line; ts2 appears
nowhere. -/
theorem WriteString_keeps_first_timestamp :
    (∀ (p : TriceLineComposer) (ts s : List Char), p.line ≠ [] →
      (∃ w ws, (WriteString p ts s).written = w :: ws ∧ p.line <+: w
        ∧ w.head? = p.line.head?)
      ∨ ((WriteString p ts s).written = []
        ∧ p.line <+: (WriteString p ts s).comp.line
        ∧ ((WriteString p ts s).comp.line).head? = p.line.head?))
    ∧ (∀ (ts1 ts2 pfx sfx : List Char),
      (WriteString (TriceLineComposer.mk pfx sfx []) ts1 msgValueChars).written = []
      ∧ (WriteString (TriceLineComposer.mk pfx sfx []) ts1 msgValueChars).comp.line
          = [ts1, pfx, msgValueChars]
      ∧ (WriteString (WriteString (TriceLineComposer.mk pfx sfx []) ts1 msgValueChars).comp
            ts2 ['2', '0', '0', '\n']).written
          = [[ts1, pfx, msgValueChars, ['2', '0', '0'], sfx]]
      ∧ (WriteString (WriteString (TriceLineComposer.mk pfx sfx []) ts1 msgValueChars).comp
            ts2 ['2', '0', '0', '\n']).comp.line = []) := by
  constructor
  · intro p ts s hline
    by_cases hs : s.isEmpty
    · have hnil : s = [] := by simpa using hs
      subst hnil
      exact Or.inr ⟨rfl, List.prefix_refl _, rfl⟩
    · have hlE : p.line.isEmpty = false := by
        cases hpl : p.line with
        | nil => exact absurd hpl hline
        | cons a t => simp
      simp only [WriteString, hs, Bool.false_eq_true, if_false]
      rcases hsp : splitLF (normalizeNewlines s) with _ | ⟨sx, rest⟩
      · exact absurd hsp (splitLF_ne_nil _)
      · cases rest with
        | nil =>
          refine Or.inr ?_
          simp only [List.length_singleton, Nat.sub_self, writeLoop_cons_zero, hlE,
            Bool.false_eq_true, if_false, writeLoop]
          exact ⟨rfl, List.prefix_append _ _, head_append_of_ne_nil _ hline⟩
        | cons sy rest2 =>
          refine Or.inl ?_
          simp only [List.length_cons, Nat.add_sub_cancel]
          rw [show rest2.length + 1 = (sy :: rest2).length from by simp]
          rw [writeLoop_cons_pos p.pfx p.sfx ts sx (sy :: rest2) p.line
            (sy :: rest2).length false [] (by simp)]
          rw [hlE]
          simp only [Bool.false_eq_true, if_false, List.nil_append]
          have hpre := writeLoop_acc_prefix p.pfx p.sfx ts (sy :: rest2) []
            ((sy :: rest2).length - 1) false [p.line ++ [sx, p.sfx]]
          obtain ⟨tl, htl⟩ := hpre
          refine ⟨p.line ++ [sx, p.sfx], tl, ?_, List.prefix_append _ _,
            head_append_of_ne_nil _ hline⟩
          simpa using htl.symm
  · intro ts1 ts2 pfx sfx
    exact ⟨rfl, rfl, rfl, rfl⟩

/-- C7 witness: a composer holding the pending line [["T"]] receives the later
fragment "200\n": the written line extends the pending line and keeps its head. -/
theorem WriteString_keeps_first_timestamp_witness :
    (∃ w ws,
      (WriteString (TriceLineComposer.mk [] [] [['T']]) ['U'] ['2', '0', '0', '\n']).written
          = w :: ws
      ∧ (TriceLineComposer.mk [] [] [['T']]).line <+: w
      ∧ w.head? = (TriceLineComposer.mk [] [] [['T']]).line.head?)
    ∨ ((WriteString (TriceLineComposer.mk [] [] [['T']]) ['U'] ['2', '0', '0', '\n']).written
          = []
      ∧ (TriceLineComposer.mk [] [] [['T']]).line
          <+: (WriteString (TriceLineComposer.mk [] [] [['T']]) ['U'] ['2', '0', '0', '\n']).comp.line
      ∧ ((WriteString (TriceLineComposer.mk [] [] [['T']]) ['U'] ['2', '0', '0', '\n']).comp.line).head?
          = (TriceLineComposer.mk [] [] [['T']]).line.head?) :=
  WriteString_keeps_first_timestamp.1 (TriceLineComposer.mk [] [] [['T']]) ['U']
    ['2', '0', '0', '\n'] (by decide)

/-- C8: when the final split piece of a WriteString call is empty and opens a new
line (which, s being nonempty, forces at least one line break in the fragment), the
composer discards the pending line state before returning, so the next fragment
starts a fresh line with a fresh timestamp. -/
theorem WriteString_discards_empty_started_line :
    ∀ (p : TriceLineComposer) (ts s : List Char),
    s ≠ [] → (splitLF (normalizeNewlines s)).getLast? = some [] →
    (WriteString p ts s).comp.line = [] := by
  intro p ts s hne hlast
  have hs : ¬ s.isEmpty = true := by
    simp only [List.isEmpty_eq_true]
    exact hne
  have h2 := splitLF_getLast_nil_length (normalizeNewlines_ne_nil hne) hlast
  have hstruct := writeLoop_last_structure p.pfx p.sfx ts
    (splitLF (normalizeNewlines s)) [] p.line [] h2 hlast
  simp only [WriteString, hs, Bool.false_eq_true, if_false]
  rw [hstruct.2]
  simp

/-- C8 witness: feeding "x\n" leaves no pending line. -/
theorem WriteString_discards_empty_started_line_witness :
    (WriteString (TriceLineComposer.mk [] [] []) [] ['x', '\n']).comp.line = [] :=
  WriteString_discards_empty_started_line (TriceLineComposer.mk [] [] []) []
    ['x', '\n'] (by decide) (by decide)

/-- C10: WriteString always returns n = len(s) and a nil error; on the empty string
it returns (0, nil), writes nothing, and leaves the composer unchanged. -/
theorem WriteString_total_result :
    ∀ (p : TriceLineComposer) (ts s : List Char),
    (WriteString p ts s).n = s.length
    ∧ (WriteString p ts s).err = none
    ∧ (s = [] → WriteString p ts s = WriteResult.mk p [] 0 none) := by
  intro p ts s
  by_cases hs : s.isEmpty
  · have hnil : s = [] := by simpa using hs
    subst hnil
    exact ⟨rfl, rfl, fun _ => rfl⟩
  · refine ⟨?_, ?_, ?_⟩
    · simp [WriteString, hs]
    · simp [WriteString, hs]
    · intro h
      subst h
      simp at hs

/-- C10 witness: the empty-string call on an empty composer. -/
theorem WriteString_total_result_witness :
    WriteString (TriceLineComposer.mk [] [] []) [] []
      = WriteResult.mk (TriceLineComposer.mk [] [] []) [] 0 none :=
  (WriteString_total_result (TriceLineComposer.mk [] [] []) [] []).2.2 rfl

theorem lookup_append {β : Type} (k : Nat) :
    ∀ (l1 l2 : List (Nat × β)),
    List.lookup k (l1 ++ l2) =
      match List.lookup k l1 with
      | some v => some v
      | none => List.lookup k l2 := by
  intro l1 l2
  induction l1 with
  | nil => simp [List.lookup]
  | cons p rest ih =>
    obtain ⟨a, b⟩ := p
    by_cases hk : (k == a) = true
    · simp [List.lookup, hk]
    · simp only [List.cons_append, List.lookup, hk]
      exact ih

theorem lookup_refreshStep_preserved {acc : TriceIDLookUp × List Nat} {it : TriceItem}
    {k : Nat} {tf0 : TriceFmt} (h : List.lookup k acc.1 = some tf0) :
    List.lookup k (refreshStep acc it).1 = some tf0 := by
  unfold refreshStep
  cases hl : List.lookup it.id acc.1 with
  | none =>
    simp only []
    rw [lookup_append, h]
  | some tf =>
    by_cases he : itemFmt it = tf <;> simp [he, h]

theorem lookup_refreshStep (acc : TriceIDLookUp × List Nat) (it : TriceItem) (k : Nat) :
    List.lookup k (refreshStep acc it).1 =
      match List.lookup k acc.1 with
      | some v => some v
      | none => if k = it.id then some (itemFmt it) else none := by
  unfold refreshStep
  cases hl : List.lookup it.id acc.1 with
  | none =>
    simp only []
    rw [lookup_append]
    cases hk : List.lookup k acc.1 with
    | some v => simp
    | none =>
      by_cases hke : k = it.id
      · subst hke
        simp [List.lookup]
      · have hb : (k == it.id) = false := by
          simp [hke]
        simp [List.lookup, hb, hke]
  | some tf =>
    simp only []
    by_cases he : itemFmt it = tf
    · rw [if_pos he]
      cases hk : List.lookup k acc.1 with
      | some v => simp
      | none =>
        by_cases hke : k = it.id
        · subst hke
          rw [hk] at hl
          cases hl
        · simp [hke]
    · rw [if_neg he]
      cases hk : List.lookup k acc.1 with
      | some v => simp
      | none =>
        by_cases hke : k = it.id
        · subst hke
          rw [hk] at hl
          cases hl
        · simp [hke]

theorem refreshGo_lookup (k : Nat) :
    ∀ (items : List TriceItem) (acc : TriceIDLookUp × List Nat),
    List.lookup k (refreshGo acc items).1 =
      match List.lookup k acc.1 with
      | some v => some v
      | none => Option.map itemFmt (items.find? (fun it => it.id == k)) := by
  intro items
  induction items with
  | nil =>
    intro acc
    cases hl : List.lookup k acc.1 <;> simp [refreshGo, hl]
  | cons it rest ih =>
    intro acc
    show List.lookup k (refreshGo (refreshStep acc it) rest).1 = _
    rw [ih, lookup_refreshStep]
    cases hk : List.lookup k acc.1 with
    | some v => simp
    | none =>
      by_cases hke : k = it.id
      · subst hke
        simp [List.find?]
      · have hb : (it.id == k) = false := by
          simp
          exact fun h => hke h.symm
        simp [List.find?, hb, hke]

theorem refreshGo_reports_mono {k : Nat} :
    ∀ (items : List TriceItem) (acc : TriceIDLookUp × List Nat),
    k ∈ acc.2 → k ∈ (refreshGo acc items).2 := by
  intro items
  induction items with
  | nil =>
    intro acc h
    exact h
  | cons it rest ih =>
    intro acc h
    show k ∈ (refreshGo (refreshStep acc it) rest).2
    apply ih
    unfold refreshStep
    cases List.lookup it.id acc.1 with
    | none => exact h
    | some tf =>
      by_cases he : itemFmt it = tf <;> simp [he, h]

theorem refreshGo_conflict {k : Nat} {tf0 : TriceFmt} :
    ∀ (items : List TriceItem) (acc : TriceIDLookUp × List Nat),
    List.lookup k acc.1 = some tf0 →
    ∀ it, it ∈ items → it.id = k → itemFmt it ≠ tf0 →
    k ∈ (refreshGo acc items).2 := by
  intro items
  induction items with
  | nil =>
    intro acc hl it hmem
    simp at hmem
  | cons x rest ih =>
    intro acc hl it hmem hid hne
    rcases List.mem_cons.mp hmem with hx | hrest
    · subst hx
      subst hid
      have hrep : it.id ∈ (refreshStep acc it).2 := by
        unfold refreshStep
        rw [hl]
        simp [hne]
      exact refreshGo_reports_mono rest _ hrep
    · exact ih (refreshStep acc x) (lookup_refreshStep_preserved hl) it hrest hid hne

theorem refresh_conflict_reported {k : Nat} :
    ∀ (items : List TriceItem) (acc : TriceIDLookUp × List Nat) (it0 : TriceItem),
    List.lookup k acc.1 = none →
    items.find? (fun it => it.id == k) = some it0 →
    ∀ it, it ∈ items → it.id = k → itemFmt it ≠ itemFmt it0 →
    k ∈ (refreshGo acc items).2 := by
  intro items
  induction items with
  | nil =>
    intro acc it0 hl hfind
    simp at hfind
  | cons x rest ih =>
    intro acc it0 hl hfind it hmem hid hne
    by_cases hx : (x.id == k) = true
    · have hx0 : x = it0 := by
        simp only [List.find?, hx] at hfind
        exact Option.some.inj hfind
      subst hx0
      have hxk : x.id = k := by simpa using hx
      have hstep : List.lookup k (refreshStep acc x).1 = some (itemFmt x) := by
        rw [lookup_refreshStep, hl]
        simp [hxk.symm]
      rcases List.mem_cons.mp hmem with hxx | hrest
      · subst hxx
        exact absurd rfl hne
      · exact refreshGo_conflict rest (refreshStep acc x) hstep it hrest hid hne
    · have hfind2 : rest.find? (fun it => it.id == k) = some it0 := by
        simpa [List.find?, hx] using hfind
      have hxk : ¬ k = x.id := by
        intro h
        subst h
        simp at hx
      have hstep : List.lookup k (refreshStep acc x).1 = none := by
        rw [lookup_refreshStep, hl]
        simp [hxk]
      rcases List.mem_cons.mp hmem with hxx | hrest
      · subst hxx
        exact absurd hid (fun h => by simp [h] at hx)
      · exact ih (refreshStep acc x) it0 hstep hfind2 it hrest hid hne

/-- C2: for every TriceID k, the table produced by the refresh pass maps k to exactly
the (macroType, formatString) of the first call site with id k in walk order — later
conflicting pairs never replace it — and every later call site carrying id k with a
different pair causes k to be reported as a mismatch. -/
theorem refresh_first_seen_wins :
    ∀ (items : List TriceItem) (k : Nat),
    List.lookup k (refreshIDs items).1
        = Option.map itemFmt (items.find? (fun it => it.id == k))
    ∧ (∀ it it0, it ∈ items → items.find? (fun it => it.id == k) = some it0 →
        it.id = k → itemFmt it ≠ itemFmt it0 → k ∈ (refreshIDs items).2) := by
  intro items k
  constructor
  · unfold refreshIDs
    rw [refreshGo_lookup]
    simp [List.lookup]
  · intro it it0 hmem hfind hid hne
    exact refresh_conflict_reported items ([], []) it0 (by simp [List.lookup]) hfind
      it hmem hid hne

/-- C2 witness: the input of TestRefreshIDListSingle1 — two call sites share ID 12345
with different format strings; the table keeps the first pair and 12345 is reported. -/
theorem refresh_first_seen_wins_witness :
    List.lookup 12345 (refreshIDs testRefreshItems).1
        = some (TriceFmt.mk "TRICE16_3" "hi %2d, %13u, %64b\\n")
    ∧ 12345 ∈ (refreshIDs testRefreshItems).2 := by
  have h := refresh_first_seen_wins testRefreshItems 12345
  constructor
  · rw [h.1]
    decide
  · exact h.2 (TriceItem.mk "TRICE16_3" 12345 "DIFFERENT! %2d, %13u, %64b\\n")
      (TriceItem.mk "TRICE16_3" 12345 "hi %2d, %13u, %64b\\n")
      (by decide) (by decide) rfl (by decide)

theorem insertGo_assigned_all_zero :
    ∀ (items : List TriceItem) (ids : List Nat) (t : TriceIDLookUp),
    (∀ it ∈ items, it.id = 0) → items.length ≤ ids.length →
    (insertGo ids t items).2 = ids.take items.length := by
  intro items
  induction items with
  | nil =>
    intro ids t h hlen
    simp [insertGo]
  | cons it rest ih =>
    intro ids t h hlen
    have hid : it.id = 0 := h it (List.mem_cons_self _ _)
    cases ids with
    | nil => simp at hlen
    | cons n ids2 =>
      have hrec := ih ids2 (t ++ [(n, itemFmt it)])
        (fun x hx => h x (List.mem_cons_of_mem _ hx))
        (by simp at hlen ⊢; omega)
      simp [insertGo, hid, hrec, List.take_succ_cons]

/-- C1 (amended): a synchronization pass gives every sentinel-0 call site its own
fresh TriceID, popped from IDSpace in file-tree walk order; call sites with identical
(macroType, formatString) receive distinct IDs — an ID is never shared between two
sentinel-0 sites within a pass. -/
theorem insert_zero_sites_fresh_ids :
    ∀ (idSpace : List Nat) (items : List TriceItem),
    (∀ it ∈ items, it.id = 0) → items.length ≤ idSpace.length → idSpace.Nodup →
    (insertTriceIDs idSpace items).2 = idSpace.take items.length
    ∧ ((insertTriceIDs idSpace items).2).Nodup := by
  intro ids items h hlen hnd
  have ha : (insertTriceIDs ids items).2 = ids.take items.length :=
    insertGo_assigned_all_zero items ids [] h hlen
  refine ⟨ha, ?_⟩
  rw [ha]
  exact hnd.sublist (List.take_sublist _ _)

set_option maxRecDepth 4000 in
/-- C1 witness: on the call sites of TestInsertSharedIDs0WithParamCount with the
range [10000, 10099] and empty loaded tables, the nine resolved IDs are the first
nine unused IDs, all distinct. -/
theorem insert_zero_sites_fresh_ids_witness :
    (insertTriceIDs (IDSpaceOf [] [] 10000 10099) testTableInsert).2
        = (IDSpaceOf [] [] 10000 10099).take testTableInsert.length
    ∧ ((insertTriceIDs (IDSpaceOf [] [] 10000 10099) testTableInsert).2).Nodup :=
  insert_zero_sites_fresh_ids (IDSpaceOf [] [] 10000 10099) testTableInsert
    (by decide) (by decide) (by decide)

set_option maxRecDepth 4000 in
/-- C1 counterexample: the second and third call sites of
TestInsertSharedIDs0WithParamCount carry the identical pair (trice8_1, "hi %d") and
both embed the sentinel ID 0, yet one synchronization pass resolves them to the
distinct TriceIDs 10001 and 10002, and the resulting table is exactly the table the
repository's test expects (em in the test source). -/
theorem insert_shared_id_counterexample :
    testTableInsert.get? 1 = some (TriceItem.mk "trice8_1" 0 "hi %d")
    ∧ testTableInsert.get? 2 = some (TriceItem.mk "trice8_1" 0 "hi %d")
    ∧ (insertTriceIDs (IDSpaceOf [] [] 10000 10099) testTableInsert).2.get? 1
        = some 10001
    ∧ (insertTriceIDs (IDSpaceOf [] [] 10000 10099) testTableInsert).2.get? 2
        = some 10002
    ∧ (10001 : Nat) ≠ 10002
    ∧ (insertTriceIDs (IDSpaceOf [] [] 10000 10099) testTableInsert).1 = emInsert := by
  decide

set_option maxRecDepth 4000 in
/-- The shared-ID pass described verbatim by the spec disagrees with the repository's
test: it would resolve the identical sites to one shared ID (10001 twice) and produce
a table different from the test's expected em. -/
theorem insertShared_disagrees_with_test :
    (insertTriceIDsShared (IDSpaceOf [] [] 10000 10099) testTableInsert).2
        = [10000, 10001, 10001, 10002, 10002, 10001, 10003, 10004, 10005]
    ∧ (insertTriceIDsShared (IDSpaceOf [] [] 10000 10099) testTableInsert).1
        ≠ emInsert := by
  decide

end Trice
